import Mathlib

/-!
Verification of the core data structures of `exchain-commons`:
the identity-indexed FIFO container `LinkedHashmap` from
`src/structs/linked_hashmap.rs` and the `Order` entity from
`src/structs/order.rs`.

The Rust `HashMap<Id, Node<T>>` backing store is embedded as an
association list `List (Id × Node Id T)` whose keys are kept unique by
the container operations themselves (exactly as a hash map keeps them
unique).  `mGet?`, `mContains`, `mInsert` (replace-or-add), `mErase` and
`mModify` (the effect of `get_mut` followed by a field write) mirror the
`HashMap` operations used by the source.  The `HasId` trait is embedded
as an explicit identity function `tid : T → Id` passed to the operations
that call `.id()` in the source.
-/

set_option maxHeartbeats 1000000
set_option linter.unusedVariables false
set_option linter.unusedSectionVars false

namespace Exchain

/-- A doubly linked list node: the stored value plus the optional ids of
the neighbouring nodes (`Node<T>` in `linked_hashmap.rs`). -/
structure Node (Id : Type) (T : Type) where
  value : T
  next : Option Id
  prev : Option Id
deriving DecidableEq, Repr

/-- The hash-indexed doubly linked list `LinkedHashmap<T>`:
boundary pointers `head`/`tail` plus the backing map `items`. -/
structure LinkedHashmap (Id : Type) (T : Type) where
  head : Option Id
  tail : Option Id
  items : List (Id × Node Id T)
deriving DecidableEq, Repr

variable {Id : Type} {T : Type} [DecidableEq Id]

/-- Rust `HashMap::get`: first (unique) entry with the given key. -/
def mGet? : List (Id × Node Id T) → Id → Option (Node Id T)
  | [], _ => none
  | (k, v) :: rest, id => if k = id then some v else mGet? rest id

/-- Rust `HashMap::contains_key`. -/
def mContains (m : List (Id × Node Id T)) (id : Id) : Bool :=
  (mGet? m id).isSome

/-- Rust `HashMap::remove`: drop the (unique) entry with the given key. -/
def mErase : List (Id × Node Id T) → Id → List (Id × Node Id T)
  | [], _ => []
  | (k, v) :: rest, id => if k = id then rest else (k, v) :: mErase rest id

/-- The effect of `HashMap::get_mut` followed by a field update:
rewrite the (unique) entry with the given key in place. -/
def mModify : List (Id × Node Id T) → Id → (Node Id T → Node Id T) → List (Id × Node Id T)
  | [], _, _ => []
  | (k, v) :: rest, id, f => if k = id then (k, f v) :: rest else (k, v) :: mModify rest id f

/-- Rust `HashMap::insert`: replace the entry if the key is present, else add it. -/
def mInsert (m : List (Id × Node Id T)) (id : Id) (v : Node Id T) : List (Id × Node Id T) :=
  if mContains m id then mModify m id (fun _ => v) else m ++ [(id, v)]

namespace LinkedHashmap

/-- Rust `LinkedHashmap::new`. -/
def new : LinkedHashmap Id T := { head := none, tail := none, items := [] }

/-- Rust `LinkedHashmap::push`: append at the tail; no-op when the id exists. -/
def push (tid : T → Id) (lhm : LinkedHashmap Id T) (v : T) : LinkedHashmap Id T :=
  let id := tid v
  if mContains lhm.items id then
    lhm
  else
    match lhm.tail with
    | some tailId =>
      match mGet? lhm.items tailId with
      | some tailNode =>
        { head := lhm.head, tail := some id,
          items := mInsert (mModify lhm.items tailId (fun n => { n with next := some id })) id
            { value := v, next := none, prev := some (tid tailNode.value) } }
      | none =>
        { head := lhm.head, tail := some id,
          items := mInsert lhm.items id { value := v, next := none, prev := none } }
    | none =>
      { head := some id, tail := some id,
        items := mInsert lhm.items id { value := v, next := none, prev := none } }

/-- Rust `LinkedHashmap::push_first`: insert at the head; no-op when the id exists. -/
def push_first (tid : T → Id) (lhm : LinkedHashmap Id T) (v : T) : LinkedHashmap Id T :=
  let id := tid v
  if mContains lhm.items id then
    lhm
  else
    match lhm.head with
    | some headId =>
      match mGet? lhm.items headId with
      | some headNode =>
        { head := some id, tail := lhm.tail,
          items := mInsert (mModify lhm.items headId (fun n => { n with prev := some id })) id
            { value := v, next := some (tid headNode.value), prev := none } }
      | none =>
        { head := some id, tail := lhm.tail,
          items := mInsert lhm.items id { value := v, next := none, prev := none } }
    | none =>
      { head := some id, tail := some id,
        items := mInsert lhm.items id { value := v, next := none, prev := none } }

/-- Rust `LinkedHashmap::pop`: remove and return the head entry; `None` on an
empty container; defensive reset of both boundaries when the recorded
head id is absent from the map or when the successor id is absent. -/
def pop (lhm : LinkedHashmap Id T) : Option T × LinkedHashmap Id T :=
  match lhm.head with
  | none => (none, lhm)
  | some headId =>
    match mGet? lhm.items headId with
    | none => (none, { head := none, tail := none, items := lhm.items })
    | some node =>
      let rest := mErase lhm.items headId
      match node.next with
      | none => (some node.value, { head := none, tail := none, items := rest })
      | some newHeadId =>
        if mContains rest newHeadId then
          (some node.value,
            { head := some newHeadId, tail := lhm.tail,
              items := mModify rest newHeadId (fun n => { n with prev := none }) })
        else
          (some node.value, { head := none, tail := none, items := rest })

/-- Rust `LinkedHashmap::remove`: remove an arbitrary entry by id, relinking
its neighbours; `None` when the id is absent. -/
def remove (lhm : LinkedHashmap Id T) (id : Id) : Option T × LinkedHashmap Id T :=
  match mGet? lhm.items id with
  | none => (none, lhm)
  | some node =>
    let items1 := mErase lhm.items id
    let step1 : Option Id × List (Id × Node Id T) :=
      match node.next with
      | some nextId =>
        if mContains items1 nextId then
          (lhm.tail, mModify items1 nextId (fun n => { n with prev := node.prev }))
        else if lhm.tail = some nextId then
          (node.prev, items1)
        else
          (lhm.tail, items1)
      | none => (node.prev, items1)
    let step2 : Option Id × List (Id × Node Id T) :=
      match node.prev with
      | some prevId =>
        if mContains step1.2 prevId then
          (lhm.head, mModify step1.2 prevId (fun n => { n with next := node.next }))
        else if lhm.head = some prevId then
          (node.next, step1.2)
        else
          (lhm.head, step1.2)
      | none => (node.next, step1.2)
    (some node.value, { head := step2.1, tail := step1.1, items := step2.2 })

/-- Rust `LinkedHashmap::peek`: the head value, without mutation. -/
def peek (lhm : LinkedHashmap Id T) : Option T :=
  (lhm.head.bind (fun id => mGet? lhm.items id)).map (fun n => n.value)

/-- Rust `LinkedHashmap::peek_tail`: the tail value, without mutation. -/
def peek_tail (lhm : LinkedHashmap Id T) : Option T :=
  (lhm.tail.bind (fun id => mGet? lhm.items id)).map (fun n => n.value)

/-- Rust `LinkedHashmap::get`. -/
def get (lhm : LinkedHashmap Id T) (id : Id) : Option T :=
  (mGet? lhm.items id).map (fun n => n.value)

/-- Rust `LinkedHashmap::len`. -/
def len (lhm : LinkedHashmap Id T) : Nat :=
  lhm.items.length

/-- Rust `LinkedHashmap::is_empty`. -/
def is_empty (lhm : LinkedHashmap Id T) : Bool :=
  lhm.items.isEmpty

/-- Rust `LinkedHashmap::contains`. -/
def contains (lhm : LinkedHashmap Id T) (id : Id) : Bool :=
  mContains lhm.items id

/-- Rust `LinkedHashmap::clear`. -/
def clear (lhm : LinkedHashmap Id T) : LinkedHashmap Id T :=
  { head := none, tail := none, items := [] }

end LinkedHashmap

/-! ## The Order entity (`src/structs/order.rs`).

`Quantity` is `u64`; quantities are embedded as `Nat`, with the checked
variants below tracking where the `u64` arithmetic of the source could
underflow (panic) or wrap. -/

/-- Order side (`Side`). -/
inductive Side
  | ask
  | bid
deriving DecidableEq, Repr

/-- Order mode (`Mode`). -/
inductive Mode
  | limit
  | market
deriving DecidableEq, Repr

/-- A resting order (`Order`); `Uuid` values are embedded as `Nat`. -/
structure Order where
  id : Nat
  owner : Nat
  quantity : Nat
  price : Nat
  executed : Nat
  timestamp : Int
  side : Side
  mode : Mode
deriving DecidableEq, Repr

namespace Order

/-- Rust `Order::new`, with the ambient `Uuid::new_v4()` id and `Utc::now()`
timestamp passed in as parameters. -/
def new (owner : Nat) (quantity : Nat) (price : Nat) (side : Side) (mode : Mode)
    (id : Nat) (timestamp : Int) : Order :=
  { owner := owner, price := price, quantity := quantity, side := side, mode := mode,
    executed := 0, id := id, timestamp := timestamp }

/-- Rust `Order::is_complete`. -/
def is_complete (o : Order) : Bool :=
  o.quantity ≤ o.executed

/-- Rust `Order::get_pending`: `self.quantity - self.executed` as `u64`
subtraction (the value when it does not underflow). -/
def get_pending (o : Order) : Nat :=
  o.quantity - o.executed

/-- Unsigned `u64` subtraction panics on underflow: the checked model. -/
def checkedSub (a b : Nat) : Option Nat :=
  if b ≤ a then some (a - b) else none

/-- Unsigned `u64` addition wraps (or, in debug builds, panics) past `2^64`:
the checked model. -/
def checkedAdd (a b : Nat) : Option Nat :=
  if a + b < 2 ^ 64 then some (a + b) else none

/-- Checked model of `Order::get_pending`: `none` exactly when the
`u64` subtraction would panic. -/
def get_pending! (o : Order) : Option Nat :=
  checkedSub o.quantity o.executed

/-- Rust `Order::execute`: execute up to `q` units (the source names the
parameter `quantity`) against the pending amount; returns the updated
order and the remainder that could not be executed. -/
def execute (o : Order) (q : Nat) : Order × Nat :=
  let pending := o.get_pending
  match compare pending q with
  | Ordering.lt => ({ o with executed := o.quantity }, q - pending)
  | Ordering.eq => ({ o with executed := o.quantity }, 0)
  | Ordering.gt => ({ o with executed := o.executed + q }, 0)

/-- Checked model of `Order::execute`: `none` exactly when some `u64`
operation in the source would panic (debug) or wrap (release). -/
def executeChecked (o : Order) (q : Nat) : Option (Order × Nat) :=
  (o.get_pending!).bind (fun pending =>
    match compare pending q with
    | Ordering.lt => (checkedSub q pending).map (fun r => ({ o with executed := o.quantity }, r))
    | Ordering.eq => some ({ o with executed := o.quantity }, 0)
    | Ordering.gt => (checkedAdd o.executed q).map (fun e => ({ o with executed := e }, 0)))

end Order

/-! ## Representation invariant for the container.

A consistent container is abstracted by the plain list `l` of its values
in FIFO order.  `nodesOfAux tid prev l nxt` is the canonical node list
of `l`: each value is paired with its neighbour links, the first node's
`prev` being `prev` and the last node's `next` being `nxt`.  The backing
map of a consistent container is a permutation of the canonical node
list (a hash map carries its entries in no particular order). -/

/-- Identity of the first element of `l`, or `d` when `l` is empty. -/
def headId (tid : T → Id) (l : List T) (d : Option Id) : Option Id :=
  match l with
  | [] => d
  | v :: _ => some (tid v)

/-- Identity of the last element of `l`, or `d` when `l` is empty. -/
def lastId (tid : T → Id) (l : List T) (d : Option Id) : Option Id :=
  match l.getLast? with
  | none => d
  | some v => some (tid v)

/-- Canonical node list of `l`, with boundary links `prev` and `nxt`. -/
def nodesOfAux (tid : T → Id) : Option Id → List T → Option Id → List (Id × Node Id T)
  | _, [], _ => []
  | prev, v :: rest, nxt =>
    (tid v, { value := v, next := headId tid rest nxt, prev := prev }) ::
      nodesOfAux tid (some (tid v)) rest nxt

/-- Canonical node list of a whole container holding `l` in FIFO order. -/
def nodesOf (tid : T → Id) (l : List T) : List (Id × Node Id T) :=
  nodesOfAux tid none l none

/-- The container `lhm` represents the FIFO sequence `l`: ids are unique,
the boundary pointers name the first and last element of `l`, and the
backing map holds exactly the canonical nodes of `l`. -/
def Represents (tid : T → Id) (lhm : LinkedHashmap Id T) (l : List T) : Prop :=
  (l.map tid).Nodup ∧
  lhm.head = headId tid l none ∧
  lhm.tail = lastId tid l none ∧
  lhm.items.Perm (nodesOf tid l)

/-- Fuelled traversal following `next` links. -/
def traverseNext (m : List (Id × Node Id T)) : Nat → Option Id → List T
  | 0, _ => []
  | _ + 1, none => []
  | fuel + 1, some k =>
    match mGet? m k with
    | none => []
    | some n => n.value :: traverseNext m fuel n.next

/-- Fuelled traversal following `prev` links. -/
def traversePrev (m : List (Id × Node Id T)) : Nat → Option Id → List T
  | 0, _ => []
  | _ + 1, none => []
  | fuel + 1, some k =>
    match mGet? m k with
    | none => []
    | some n => n.value :: traversePrev m fuel n.prev

/-- The forward (FIFO) traversal of the container, from `head` by `next`. -/
def toListNext (lhm : LinkedHashmap Id T) : List T :=
  traverseNext lhm.items lhm.items.length lhm.head

/-- The backward traversal of the container, from `tail` by `prev`. -/
def toListPrev (lhm : LinkedHashmap Id T) : List T :=
  traversePrev lhm.items lhm.items.length lhm.tail

/-- One mutating container operation. -/
inductive Op (Id : Type) (T : Type)
  | push (v : T)
  | push_first (v : T)
  | pop
  | remove (id : Id)
  | clear

/-- Apply one operation to a container. -/
def applyOp (tid : T → Id) (lhm : LinkedHashmap Id T) : Op Id T → LinkedHashmap Id T
  | Op.push v => lhm.push tid v
  | Op.push_first v => lhm.push_first tid v
  | Op.pop => lhm.pop.2
  | Op.remove id => (lhm.remove id).2
  | Op.clear => lhm.clear

/-- Run a sequence of operations from the empty container. -/
def runOps (tid : T → Id) (ops : List (Op Id T)) : LinkedHashmap Id T :=
  ops.foldl (applyOp tid) LinkedHashmap.new

/-- The logical effect of one operation on the abstract FIFO sequence:
push appends (a duplicate id is a no-op), push_first prepends, pop drops
the first element, remove erases the identified element, clear empties. -/
def modelOp (tid : T → Id) (l : List T) : Op Id T → List T
  | Op.push v => if tid v ∈ l.map tid then l else l ++ [v]
  | Op.push_first v => if tid v ∈ l.map tid then l else v :: l
  | Op.pop => l.tail
  | Op.remove id => l.filter (fun x => tid x ≠ id)
  | Op.clear => []

/-- The logical insertion order modulo explicit removals, after a
sequence of operations. -/
def modelRun (tid : T → Id) (ops : List (Op Id T)) : List T :=
  ops.foldl (modelOp tid) []

/-- Push every value of `vs`, in order. -/
def pushAll (tid : T → Id) (lhm : LinkedHashmap Id T) (vs : List T) : LinkedHashmap Id T :=
  vs.foldl (fun s v => s.push tid v) lhm

/-- Pop `n` times, collecting the returned values (stopping early on an
absent result). -/
def popN : LinkedHashmap Id T → Nat → List T × LinkedHashmap Id T
  | lhm, 0 => ([], lhm)
  | lhm, n + 1 =>
    match lhm.pop with
    | (some v, lhm2) =>
      let r := popN lhm2 n
      (v :: r.1, r.2)
    | (none, lhm2) => ([], lhm2)

/-! ## Order theorems -/

/-- Branch equation of `execute` when the pending amount is short. -/
theorem execute_lt (o : Order) (q : Nat) (hc : o.get_pending < q) :
    o.execute q = ({ o with executed := o.quantity }, q - o.get_pending) := by
  simp [Order.execute, Nat.compare_eq_lt.mpr hc]

/-- Branch equation of `execute` when the pending amount matches. -/
theorem execute_eq (o : Order) (q : Nat) (hc : o.get_pending = q) :
    o.execute q = ({ o with executed := o.quantity }, 0) := by
  simp [Order.execute, Nat.compare_eq_eq.mpr hc]

/-- Branch equation of `execute` when the pending amount exceeds the request. -/
theorem execute_gt (o : Order) (q : Nat) (hc : q < o.get_pending) :
    o.execute q = ({ o with executed := o.executed + q }, 0) := by
  simp [Order.execute, Nat.compare_eq_gt.mpr hc]

/-- C2: for every order with `executed ≤ quantity` and every requested
quantity `q`, `execute q` behaves by three-way comparison against
`pending = quantity - executed`: if `pending < q` then `executed`
becomes `quantity` and `q - pending` is returned; if `pending = q` then
`executed` becomes `quantity` and `0` is returned; if `pending > q`
then `executed` increases by `q` and `0` is returned. -/
theorem order_execute_threeway (o : Order) (q : Nat) (h : o.executed ≤ o.quantity) :
    (o.get_pending < q →
      o.execute q = ({ o with executed := o.quantity }, q - o.get_pending)) ∧
    (o.get_pending = q →
      o.execute q = ({ o with executed := o.quantity }, 0)) ∧
    (q < o.get_pending →
      o.execute q = ({ o with executed := o.executed + q }, 0)) := by
  exact ⟨execute_lt o q, execute_eq o q, execute_gt o q⟩

/-- Witness for C2: a fresh order of quantity 100 executed for 110
units becomes fully executed and returns remainder 10. -/
theorem order_execute_threeway_witness :
    (Order.new 7 100 50 Side.ask Mode.limit 1 0).execute 110 =
      ({ id := 1, owner := 7, quantity := 100, price := 50, executed := 100,
         timestamp := 0, side := Side.ask, mode := Mode.limit }, 10) :=
  (order_execute_threeway (Order.new 7 100 50 Side.ask Mode.limit 1 0) 110
    (by decide)).1 (by decide)

/-- C3: under `executed ≤ quantity`, `execute` never decreases
`executed`, never pushes it past `quantity` (which it leaves
unchanged), `is_complete` reports `quantity ≤ executed` and
`get_pending` reports `quantity - executed`. -/
theorem order_execute_invariants (o : Order) (q : Nat) (h : o.executed ≤ o.quantity) :
    o.executed ≤ (o.execute q).1.executed ∧
    (o.execute q).1.executed ≤ o.quantity ∧
    (o.execute q).1.quantity = o.quantity ∧
    o.is_complete = decide (o.quantity ≤ o.executed) ∧
    o.get_pending = o.quantity - o.executed := by
  rcases Nat.lt_trichotomy o.get_pending q with hc | hc | hc
  · rw [execute_lt o q hc]
    exact ⟨h, Nat.le_refl _, rfl, rfl, rfl⟩
  · rw [execute_eq o q hc]
    exact ⟨h, Nat.le_refl _, rfl, rfl, rfl⟩
  · rw [execute_gt o q hc]
    simp only [Order.get_pending] at hc
    refine ⟨?_, ?_, rfl, rfl, rfl⟩
    · show o.executed ≤ o.executed + q
      omega
    · show o.executed + q ≤ o.quantity
      omega

/-- Witness for C3 at a half-filled order. -/
theorem order_execute_invariants_witness :
    let o : Order :=
      { id := 1, owner := 7, quantity := 100, price := 50, executed := 40,
        timestamp := 0, side := Side.bid, mode := Mode.market }
    o.executed ≤ (o.execute 30).1.executed ∧
    (o.execute 30).1.executed ≤ o.quantity ∧
    (o.execute 30).1.quantity = o.quantity ∧
    o.is_complete = decide (o.quantity ≤ o.executed) ∧
    o.get_pending = o.quantity - o.executed :=
  order_execute_invariants
    { id := 1, owner := 7, quantity := 100, price := 50, executed := 40,
      timestamp := 0, side := Side.bid, mode := Mode.market } 30 (by decide)

/-- C9: on a complete order (`executed = quantity`), `execute q`
returns `q` and leaves every field of the order unchanged. -/
theorem order_execute_complete_noop (o : Order) (q : Nat) (h : o.executed = o.quantity) :
    o.execute q = (o, q) := by
  have hp : o.get_pending = 0 := by simp [Order.get_pending, h]
  have ho : ({ o with executed := o.quantity } : Order) = o := by
    cases o
    simp_all
  rcases Nat.eq_zero_or_pos q with hq | hq
  · subst hq
    rw [execute_eq o 0 hp, ho]
  · rw [execute_lt o q (by omega), ho, hp]
    simp

/-- Witness for C9: executing 25 more units on a fully executed order
of quantity 60 returns 25 and changes nothing. -/
theorem order_execute_complete_noop_witness :
    ({ id := 2, owner := 9, quantity := 60, price := 5, executed := 60,
       timestamp := 3, side := Side.ask, mode := Mode.limit } : Order).execute 25 =
      ({ id := 2, owner := 9, quantity := 60, price := 5, executed := 60,
         timestamp := 3, side := Side.ask, mode := Mode.limit }, 25) :=
  order_execute_complete_noop
    { id := 2, owner := 9, quantity := 60, price := 5, executed := 60,
      timestamp := 3, side := Side.ask, mode := Mode.limit } 25 (by decide)

/-- C10: under `executed ≤ quantity` (with `quantity` and the request
valid `u64` values), the unsigned subtraction in `get_pending` never
underflows and no `u64` operation in `execute` panics: the checked
models succeed and agree with the total embedding.  The constructor
establishes the precondition and `execute` preserves it. -/
theorem order_no_panic (o : Order) (q : Nat) (h : o.executed ≤ o.quantity)
    (hq : o.quantity < 2 ^ 64) (hr : q < 2 ^ 64) :
    o.get_pending! = some o.get_pending ∧
    o.executeChecked q = some (o.execute q) ∧
    (o.execute q).1.executed ≤ (o.execute q).1.quantity ∧
    (∀ ow qty p s m i t, (Order.new ow qty p s m i t).executed ≤ (Order.new ow qty p s m i t).quantity) := by
  have hpend : o.get_pending! = some o.get_pending := by
    simp [Order.get_pending!, Order.checkedSub, Order.get_pending, h]
  refine ⟨hpend, ?_, ?_, fun ow qty p s m i t => Nat.zero_le _⟩
  · rcases Nat.lt_trichotomy o.get_pending q with hc | hc | hc
    · have hsub : Order.checkedSub q o.get_pending = some (q - o.get_pending) := by
        simp [Order.checkedSub, Nat.le_of_lt hc]
      simp [Order.executeChecked, Order.execute, hpend, Nat.compare_eq_lt.mpr hc, hsub]
    · simp [Order.executeChecked, Order.execute, hpend, Nat.compare_eq_eq.mpr hc]
    · have hadd : Order.checkedAdd o.executed q = some (o.executed + q) := by
        simp only [Order.get_pending] at hc
        simp only [Order.checkedAdd, if_pos (by omega : o.executed + q < 2 ^ 64)]
      simp [Order.executeChecked, Order.execute, hpend, Nat.compare_eq_gt.mpr hc, hadd]
  · rcases Nat.lt_trichotomy o.get_pending q with hc | hc | hc
    · simp [Order.execute, Nat.compare_eq_lt.mpr hc]
    · simp [Order.execute, Nat.compare_eq_eq.mpr hc]
    · simp only [Order.execute, Nat.compare_eq_gt.mpr hc]
      simp only [Order.get_pending] at hc
      omega

/-- Witness for C10 at a partially filled order. -/
theorem order_no_panic_witness :
    let o : Order :=
      { id := 4, owner := 2, quantity := 80, price := 3, executed := 30,
        timestamp := 0, side := Side.bid, mode := Mode.limit }
    o.get_pending! = some o.get_pending ∧
    o.executeChecked 70 = some (o.execute 70) ∧
    (o.execute 70).1.executed ≤ (o.execute 70).1.quantity ∧
    (∀ ow qty p s m i t, (Order.new ow qty p s m i t).executed ≤ (Order.new ow qty p s m i t).quantity) :=
  order_no_panic
    { id := 4, owner := 2, quantity := 80, price := 3, executed := 30,
      timestamp := 0, side := Side.bid, mode := Mode.limit } 70
    (by decide) (by norm_num) (by norm_num)

/-- C5: pushing a value whose id is already present, at either end, is
a no-op: the container is left completely unchanged. -/
theorem push_duplicate_noop (tid : T → Id) (lhm : LinkedHashmap Id T) (v : T)
    (h : lhm.contains (tid v) = true) :
    lhm.push tid v = lhm ∧ lhm.push_first tid v = lhm := by
  simp only [LinkedHashmap.contains] at h
  constructor
  · simp [LinkedHashmap.push, h]
  · simp [LinkedHashmap.push_first, h]

/-! ## Association list lemmas -/

/-- Lookup misses exactly the keys that are absent. -/
theorem mGet?_eq_none_iff (m : List (Id × Node Id T)) (k : Id) :
    mGet? m k = none ↔ k ∉ m.map Prod.fst := by
  induction m with
  | nil => simp [mGet?]
  | cons p rest ih =>
    obtain ⟨k1, v1⟩ := p
    by_cases h : k1 = k
    · subst h
      simp [mGet?]
    · simp [mGet?, h, ih, Ne.symm h]

/-- Lookup of a stored entry, under unique keys. -/
theorem mGet?_of_mem_nodup (m : List (Id × Node Id T)) (k : Id) (v : Node Id T)
    (hn : (m.map Prod.fst).Nodup) (hm : (k, v) ∈ m) : mGet? m k = some v := by
  induction m with
  | nil => cases hm
  | cons p rest ih =>
    obtain ⟨k1, v1⟩ := p
    simp only [List.map_cons, List.nodup_cons] at hn
    rcases List.mem_cons.mp hm with h | h
    · injection h with h1 h2
      subst h1
      subst h2
      simp [mGet?]
    · have hk : k1 ≠ k := by
        rintro rfl
        exact hn.1 (List.mem_map.mpr ⟨(k1, v), h, rfl⟩)
      simp [mGet?, hk, ih hn.2 h]

/-- A successful lookup comes from a stored entry. -/
theorem mem_of_mGet? (m : List (Id × Node Id T)) (k : Id) (v : Node Id T)
    (h : mGet? m k = some v) : (k, v) ∈ m := by
  induction m with
  | nil => simp [mGet?] at h
  | cons p rest ih =>
    obtain ⟨k1, v1⟩ := p
    by_cases hk : k1 = k
    · subst hk
      simp [mGet?] at h
      simp [h]
    · simp only [mGet?, if_neg hk] at h
      exact List.mem_cons_of_mem _ (ih h)

/-- Permuted maps with unique keys have the same lookups. -/
theorem mGet?_perm (m c : List (Id × Node Id T)) (h : m.Perm c)
    (hn : (c.map Prod.fst).Nodup) (k : Id) : mGet? m k = mGet? c k := by
  have hn' : (m.map Prod.fst).Nodup := ((h.map Prod.fst).nodup_iff).mpr hn
  cases hx : mGet? c k with
  | some v =>
    exact mGet?_of_mem_nodup m k v hn' (h.mem_iff.mpr (mem_of_mGet? c k v hx))
  | none =>
    rw [mGet?_eq_none_iff] at hx ⊢
    intro hc
    exact hx (((h.map Prod.fst).mem_iff).mp hc)

/-- Lookup across an append: a hit in the left part wins. -/
theorem mGet?_append_of_some (m1 m2 : List (Id × Node Id T)) (k : Id) (v : Node Id T)
    (h : mGet? m1 k = some v) : mGet? (m1 ++ m2) k = some v := by
  induction m1 with
  | nil => simp [mGet?] at h
  | cons p rest ih =>
    obtain ⟨k1, v1⟩ := p
    by_cases hk : k1 = k
    · simp only [mGet?, if_pos hk] at h
      simp [mGet?, hk, h]
    · simp only [mGet?, if_neg hk] at h
      simpa [mGet?, hk] using ih h

/-- Lookup across an append: the left part is consulted first. -/
theorem mGet?_append_of_none (m1 m2 : List (Id × Node Id T)) (k : Id)
    (h : mGet? m1 k = none) : mGet? (m1 ++ m2) k = mGet? m2 k := by
  induction m1 with
  | nil => rfl
  | cons p rest ih =>
    obtain ⟨k1, v1⟩ := p
    by_cases hk : k1 = k
    · simp [mGet?, hk] at h
    · simp only [mGet?, if_neg hk] at h
      simpa [mGet?, hk] using ih h

/-- Erasing a key, when keys are unique, is filtering it out. -/
theorem mErase_eq_filter (m : List (Id × Node Id T)) (k : Id)
    (hn : (m.map Prod.fst).Nodup) :
    mErase m k = m.filter (fun p => p.1 ≠ k) := by
  induction m with
  | nil => rfl
  | cons p rest ih =>
    obtain ⟨k1, v1⟩ := p
    simp only [List.map_cons, List.nodup_cons] at hn
    by_cases h : k1 = k
    · subst h
      have hrest : rest.filter (fun p => p.1 ≠ k1) = rest := by
        refine List.filter_eq_self.mpr (fun a ha => ?_)
        simp only [ne_eq, decide_eq_true_eq]
        rintro rfl
        exact hn.1 (List.mem_map.mpr ⟨a, ha, rfl⟩)
      simp only [ne_eq, decide_not] at hrest
      simp [mErase, hrest]
    · simp [mErase, h, ih hn.2, List.filter_cons, Ne.symm h]

/-- Filtering out an absent key changes nothing. -/
theorem filter_ne_eq_self (m : List (Id × Node Id T)) (k : Id)
    (h : k ∉ m.map Prod.fst) :
    m.filter (fun p => p.1 ≠ k) = m := by
  refine List.filter_eq_self.mpr (fun a ha => ?_)
  simp only [ne_eq, decide_eq_true_eq]
  rintro rfl
  exact h (List.mem_map.mpr ⟨a, ha, rfl⟩)

/-- Pointwise update at an absent key changes nothing. -/
theorem map_update_eq_self (m : List (Id × Node Id T)) (k : Id) (f : Node Id T → Node Id T)
    (h : k ∉ m.map Prod.fst) :
    m.map (fun p => if p.1 = k then (k, f p.2) else p) = m := by
  induction m with
  | nil => rfl
  | cons p rest ih =>
    obtain ⟨k1, v1⟩ := p
    simp only [List.map_cons, List.mem_cons, not_or] at h
    have hk : k1 ≠ k := fun hc => h.1 hc.symm
    simp [hk, ih h.2]

/-- In-place update of a key, when keys are unique, is a pointwise map. -/
theorem mModify_eq_map (m : List (Id × Node Id T)) (k : Id) (f : Node Id T → Node Id T)
    (hn : (m.map Prod.fst).Nodup) :
    mModify m k f = m.map (fun p => if p.1 = k then (k, f p.2) else p) := by
  induction m with
  | nil => rfl
  | cons p rest ih =>
    obtain ⟨k1, v1⟩ := p
    simp only [List.map_cons, List.nodup_cons] at hn
    by_cases h : k1 = k
    · subst h
      simp [mModify, map_update_eq_self rest k1 f hn.1]
    · simp [mModify, h, ih hn.2]

/-- Updated maps keep their keys. -/
theorem keys_map_update (m : List (Id × Node Id T)) (k : Id) (f : Node Id T → Node Id T) :
    (m.map (fun p => if p.1 = k then (k, f p.2) else p)).map Prod.fst = m.map Prod.fst := by
  induction m with
  | nil => rfl
  | cons p rest ih =>
    obtain ⟨k1, v1⟩ := p
    by_cases h : k1 = k
    · subst h
      simp [ih]
    · simp [h, ih]

/-! ## Canonical node list lemmas -/

/-- Head identity of an append. -/
theorem headId_append (tid : T → Id) (a b : List T) (d : Option Id) :
    headId tid (a ++ b) d = headId tid a (headId tid b d) := by
  cases a <;> rfl

/-- Head identity ignores the default on a non-empty list. -/
theorem headId_of_ne_nil (tid : T → Id) (l : List T) (d d2 : Option Id) (h : l ≠ []) :
    headId tid l d = headId tid l d2 := by
  cases l with
  | nil => exact absurd rfl h
  | cons x rest => rfl

/-- Last identity of a cons. -/
theorem lastId_cons (tid : T → Id) (v : T) (l : List T) (d : Option Id) :
    lastId tid (v :: l) d = lastId tid l (some (tid v)) := by
  cases l with
  | nil => rfl
  | cons w rest =>
    simp only [lastId, List.getLast?_cons_cons]
    cases h : (w :: rest).getLast? with
    | none =>
      rw [List.getLast?_eq_none_iff] at h
      cases h
    | some u => rfl

/-- Last identity of an append. -/
theorem lastId_append (tid : T → Id) (a b : List T) (d : Option Id) :
    lastId tid (a ++ b) d = lastId tid b (lastId tid a d) := by
  induction a generalizing d with
  | nil => rfl
  | cons v rest ih => rw [List.cons_append, lastId_cons, ih, lastId_cons]

/-- Last identity of an appended singleton. -/
theorem lastId_concat (tid : T → Id) (l : List T) (v : T) (d : Option Id) :
    lastId tid (l ++ [v]) d = some (tid v) := by
  rw [lastId_append]
  rfl

/-- Last identity ignores the default on a non-empty list. -/
theorem lastId_of_ne_nil (tid : T → Id) (l : List T) (d d2 : Option Id) (h : l ≠ []) :
    lastId tid l d = lastId tid l d2 := by
  rcases List.eq_nil_or_concat l with rfl | ⟨l2, w, rfl⟩
  · exact absurd rfl h
  · rw [List.concat_eq_append, lastId_concat, lastId_concat]

/-- Keys of the canonical node list are the element identities. -/
theorem keys_nodesOfAux (tid : T → Id) (prev : Option Id) (l : List T) (nxt : Option Id) :
    (nodesOfAux tid prev l nxt).map Prod.fst = l.map tid := by
  induction l generalizing prev with
  | nil => rfl
  | cons v rest ih => simp [nodesOfAux, ih]

/-- Length of the canonical node list. -/
theorem length_nodesOfAux (tid : T → Id) (prev : Option Id) (l : List T) (nxt : Option Id) :
    (nodesOfAux tid prev l nxt).length = l.length := by
  induction l generalizing prev with
  | nil => rfl
  | cons v rest ih => simp [nodesOfAux, ih]

/-- The canonical node list of an append splits at the seam: the left
part's final `next` names the right part's first element, and the right
part's initial `prev` names the left part's last element. -/
theorem nodesOfAux_append (tid : T → Id) (prev : Option Id) (l1 l2 : List T) (nxt : Option Id) :
    nodesOfAux tid prev (l1 ++ l2) nxt =
      nodesOfAux tid prev l1 (headId tid l2 nxt) ++
        nodesOfAux tid (lastId tid l1 prev) l2 nxt := by
  induction l1 generalizing prev with
  | nil => rfl
  | cons v rest ih =>
    simp only [List.cons_append, nodesOfAux, List.append_eq, headId_append, ih, lastId_cons]

/-- Lookup of an element's node in the canonical node list. -/
theorem mGet?_nodesOfAux_middle (tid : T → Id) (l1 : List T) (u : T) (l2 : List T)
    (prev nxt : Option Id) (hn : ((l1 ++ u :: l2).map tid).Nodup) :
    mGet? (nodesOfAux tid prev (l1 ++ u :: l2) nxt) (tid u) =
      some { value := u, next := headId tid l2 nxt, prev := lastId tid l1 prev } := by
  rw [nodesOfAux_append]
  have h1 : mGet? (nodesOfAux tid prev l1 (headId tid (u :: l2) nxt)) (tid u) = none := by
    rw [mGet?_eq_none_iff, keys_nodesOfAux]
    simp only [List.map_append, List.map_cons, List.nodup_append] at hn
    intro hc
    exact (hn.2.2 hc) (List.mem_cons_self _ _)
  rw [mGet?_append_of_none _ _ _ h1]
  simp [nodesOfAux, mGet?]

/-- Updating the first node's `prev` link in the canonical node list is
a change of its `prev` boundary parameter. -/
theorem map_setPrev_head (tid : T → Id) (v : T) (rest : List T) (prev nxt p2 : Option Id)
    (hv : tid v ∉ rest.map tid) :
    (nodesOfAux tid prev (v :: rest) nxt).map
        (fun p => if p.1 = tid v then (tid v, { p.2 with prev := p2 }) else p) =
      nodesOfAux tid p2 (v :: rest) nxt := by
  have hrest := map_update_eq_self (nodesOfAux tid (some (tid v)) rest nxt) (tid v)
    (fun n => { n with prev := p2 }) (by rw [keys_nodesOfAux]; exact hv)
  simp only [nodesOfAux, List.map_cons]
  simp [hrest]

/-- Updating the last node's `next` link in the canonical node list is
a change of its `next` boundary parameter. -/
theorem map_setNext_last (tid : T → Id) (l : List T) (w : T) (prev nxt n2 : Option Id)
    (hw : tid w ∉ l.map tid) :
    (nodesOfAux tid prev (l ++ [w]) nxt).map
        (fun p => if p.1 = tid w then (tid w, { p.2 with next := n2 }) else p) =
      nodesOfAux tid prev (l ++ [w]) n2 := by
  have hleft := map_update_eq_self (nodesOfAux tid prev l (some (tid w))) (tid w)
    (fun n => { n with next := n2 }) (by rw [keys_nodesOfAux]; exact hw)
  rw [nodesOfAux_append, nodesOfAux_append, List.map_append]
  simp only [headId] at hleft ⊢
  simp [nodesOfAux, hleft, headId]

/-! ## Representation invariant: helper lemmas -/

/-- Absence characterised through `mContains`. -/
theorem mContains_eq_false_iff (m : List (Id × Node Id T)) (k : Id) :
    mContains m k = false ↔ k ∉ m.map Prod.fst := by
  rw [mContains, ← mGet?_eq_none_iff m k]
  cases hq : mGet? m k <;> simp

/-- In-place updates keep the key list. -/
theorem keys_mModify (m : List (Id × Node Id T)) (k : Id) (f : Node Id T → Node Id T) :
    (mModify m k f).map Prod.fst = m.map Prod.fst := by
  induction m with
  | nil => rfl
  | cons p rest ih =>
    obtain ⟨k1, v1⟩ := p
    by_cases h : k1 = k
    · subst h
      simp [mModify]
    · simp [mModify, h, ih]

/-- The backing map of a consistent container has unique keys. -/
theorem represents_keys_nodup (tid : T → Id) (lhm : LinkedHashmap Id T) (l : List T)
    (h : Represents tid lhm l) : (lhm.items.map Prod.fst).Nodup :=
  ((h.2.2.2.map Prod.fst).nodup_iff).mpr
    ((keys_nodesOfAux tid none l none).symm ▸ h.1)

/-- Lookups in a consistent container are lookups in the canonical node list. -/
theorem represents_lookup (tid : T → Id) (lhm : LinkedHashmap Id T) (l : List T)
    (h : Represents tid lhm l) (k : Id) :
    mGet? lhm.items k = mGet? (nodesOf tid l) k :=
  mGet?_perm _ _ h.2.2.2 ((keys_nodesOfAux tid none l none).symm ▸ h.1) k

/-- Key membership in a consistent container is id membership in `l`. -/
theorem represents_contains (tid : T → Id) (lhm : LinkedHashmap Id T) (l : List T)
    (h : Represents tid lhm l) (k : Id) :
    mContains lhm.items k = decide (k ∈ l.map tid) := by
  rw [mContains, represents_lookup tid lhm l h k]
  by_cases hk : k ∈ l.map tid
  · cases hx : mGet? (nodesOf tid l) k with
    | none =>
      rw [mGet?_eq_none_iff, nodesOf, keys_nodesOfAux] at hx
      exact absurd hk hx
    | some v => simp [hk]
  · rw [(mGet?_eq_none_iff (nodesOf tid l) k).mpr (by rw [nodesOf, keys_nodesOfAux]; exact hk)]
    simp [hk]

/-- Number of entries of a consistent container. -/
theorem represents_length (tid : T → Id) (lhm : LinkedHashmap Id T) (l : List T)
    (h : Represents tid lhm l) : lhm.items.length = l.length := by
  rw [h.2.2.2.length_eq, nodesOf, length_nodesOfAux]

/-- The empty container represents the empty sequence. -/
theorem represents_new (tid : T → Id) :
    Represents tid (LinkedHashmap.new : LinkedHashmap Id T) [] :=
  ⟨List.nodup_nil, rfl, rfl, List.Perm.refl _⟩

/-- Pushing a fresh id onto a consistent container appends it to the
represented sequence. -/
theorem represents_push (tid : T → Id) (lhm : LinkedHashmap Id T) (l : List T) (v : T)
    (h : Represents tid lhm l) (hv : tid v ∉ l.map tid) :
    Represents tid (lhm.push tid v) (l ++ [v]) := by
  obtain ⟨hnodup, hhead, htail, hperm⟩ := h
  have hkeys : (lhm.items.map Prod.fst).Nodup :=
    represents_keys_nodup tid lhm l ⟨hnodup, hhead, htail, hperm⟩
  have hcont : mContains lhm.items (tid v) = false := by
    rw [represents_contains tid lhm l ⟨hnodup, hhead, htail, hperm⟩]
    simp [hv]
  rcases List.eq_nil_or_concat l with rfl | ⟨l1, w, rfl⟩
  · have hitems : lhm.items = [] := hperm.eq_nil
    have htail2 : lhm.tail = none := by simpa [lastId] using htail
    have hpush : lhm.push tid v =
        { head := some (tid v), tail := some (tid v),
          items := [(tid v, { value := v, next := none, prev := none })] } := by
      simp [LinkedHashmap.push, hcont, htail2, hitems, mInsert, mContains, mGet?]
    rw [hpush]
    exact ⟨by simp, rfl, rfl, List.Perm.refl _⟩
  · rw [List.concat_eq_append] at *
    have hlnil : l1 ++ [w] ≠ [] := by simp
    have hw : tid w ∉ l1.map tid := by
      rw [List.map_append, List.nodup_append] at hnodup
      intro hc
      exact (hnodup.2.2 hc) (by simp)
    have htail2 : lhm.tail = some (tid w) := by
      rw [htail, lastId_concat]
    have hlookw : mGet? lhm.items (tid w) =
        some { value := w, next := none, prev := lastId tid l1 none } := by
      rw [represents_lookup tid lhm (l1 ++ [w]) ⟨hnodup, hhead, htail, hperm⟩, nodesOf,
        mGet?_nodesOfAux_middle tid l1 w [] none none hnodup]
      rfl
    have hcont2 : mContains (mModify lhm.items (tid w)
        (fun n => { n with next := some (tid v) })) (tid v) = false := by
      rw [mContains_eq_false_iff, keys_mModify]
      exact (mContains_eq_false_iff lhm.items (tid v)).mp hcont
    have hpush : lhm.push tid v =
        { head := lhm.head, tail := some (tid v),
          items := mModify lhm.items (tid w) (fun n => { n with next := some (tid v) }) ++
            [(tid v, { value := v, next := none, prev := some (tid w) })] } := by
      simp [LinkedHashmap.push, hcont, htail2, hlookw, mInsert, hcont2]
    rw [hpush]
    refine ⟨?_, ?_, ?_, ?_⟩
    · rw [List.map_append, List.nodup_append]
      refine ⟨hnodup, List.nodup_singleton _, ?_⟩
      intro a ha hb
      rw [List.map_singleton, List.mem_singleton] at hb
      subst hb
      exact hv ha
    · show lhm.head = headId tid ((l1 ++ [w]) ++ [v]) none
      rw [hhead, headId_append tid (l1 ++ [w]) [v] none]
      exact headId_of_ne_nil tid (l1 ++ [w]) none _ hlnil
    · show some (tid v) = lastId tid ((l1 ++ [w]) ++ [v]) none
      rw [lastId_concat]
    · show (mModify lhm.items (tid w) (fun n => { n with next := some (tid v) }) ++
          [(tid v, ({ value := v, next := none, prev := some (tid w) } : Node Id T))]).Perm
            (nodesOf tid ((l1 ++ [w]) ++ [v]))
      rw [mModify_eq_map lhm.items (tid w) _ hkeys]
      have hmap : (nodesOf tid (l1 ++ [w])).map
          (fun p => if p.1 = tid w then (tid w, { p.2 with next := some (tid v) }) else p) =
            nodesOfAux tid none (l1 ++ [w]) (some (tid v)) :=
        map_setNext_last tid l1 w none none (some (tid v)) hw
      have hperm2 := (hperm.map
        (fun p => if p.1 = tid w then (tid w, { p.2 with next := some (tid v) }) else p))
      rw [hmap] at hperm2
      have hfin := hperm2.append
        (List.Perm.refl [(tid v, { value := v, next := none, prev := some (tid w) })])
      refine hfin.trans ?_
      rw [nodesOf, nodesOfAux_append tid none (l1 ++ [w]) [v] none]
      have h1 : headId tid [v] none = some (tid v) := rfl
      have h2 : lastId tid (l1 ++ [w]) none = some (tid w) := lastId_concat tid l1 w none
      rw [h1, h2]
      exact List.Perm.refl _

/-- Pushing a fresh id at the head of a consistent container prepends
it to the represented sequence. -/
theorem represents_push_first (tid : T → Id) (lhm : LinkedHashmap Id T) (l : List T) (v : T)
    (h : Represents tid lhm l) (hv : tid v ∉ l.map tid) :
    Represents tid (lhm.push_first tid v) (v :: l) := by
  obtain ⟨hnodup, hhead, htail, hperm⟩ := h
  have hkeys : (lhm.items.map Prod.fst).Nodup :=
    represents_keys_nodup tid lhm l ⟨hnodup, hhead, htail, hperm⟩
  have hcont : mContains lhm.items (tid v) = false := by
    rw [represents_contains tid lhm l ⟨hnodup, hhead, htail, hperm⟩]
    simp [hv]
  cases l with
  | nil =>
    have hitems : lhm.items = [] := hperm.eq_nil
    have hhead2 : lhm.head = none := by simpa [headId] using hhead
    have hpush : lhm.push_first tid v =
        { head := some (tid v), tail := some (tid v),
          items := [(tid v, { value := v, next := none, prev := none })] } := by
      simp [LinkedHashmap.push_first, hcont, hhead2, hitems, mInsert, mContains, mGet?]
    rw [hpush]
    exact ⟨by simp, rfl, rfl, List.Perm.refl _⟩
  | cons x rest =>
    have hx : tid x ∉ rest.map tid := by
      have := hnodup
      simp only [List.map_cons, List.nodup_cons] at this
      exact this.1
    have hvx : tid v ∉ tid x :: rest.map tid := by simpa using hv
    have hhead2 : lhm.head = some (tid x) := by simpa [headId] using hhead
    have hlookx : mGet? lhm.items (tid x) =
        some { value := x, next := headId tid rest none, prev := none } := by
      rw [represents_lookup tid lhm (x :: rest) ⟨hnodup, hhead, htail, hperm⟩]
      have := mGet?_nodesOfAux_middle tid [] x rest none none (by simpa using hnodup)
      simpa [lastId] using this
    have hcont2 : mContains (mModify lhm.items (tid x)
        (fun n => { n with prev := some (tid v) })) (tid v) = false := by
      rw [mContains_eq_false_iff, keys_mModify]
      exact (mContains_eq_false_iff lhm.items (tid v)).mp hcont
    have hpush : lhm.push_first tid v =
        { head := some (tid v), tail := lhm.tail,
          items := mModify lhm.items (tid x) (fun n => { n with prev := some (tid v) }) ++
            [(tid v, { value := v, next := some (tid x), prev := none })] } := by
      simp [LinkedHashmap.push_first, hcont, hhead2, hlookx, mInsert, hcont2]
    rw [hpush]
    refine ⟨?_, rfl, ?_, ?_⟩
    · simp only [List.map_cons, List.nodup_cons]
      exact ⟨hvx, by simpa using hnodup⟩
    · show lhm.tail = lastId tid (v :: x :: rest) none
      rw [htail, lastId_cons tid v (x :: rest) none]
      exact lastId_of_ne_nil tid (x :: rest) none _ (by simp)
    · show (mModify lhm.items (tid x) (fun n => { n with prev := some (tid v) }) ++
          [(tid v, ({ value := v, next := some (tid x), prev := none } : Node Id T))]).Perm
            (nodesOf tid (v :: x :: rest))
      rw [mModify_eq_map lhm.items (tid x) _ hkeys]
      have hmap : (nodesOf tid (x :: rest)).map
          (fun p => if p.1 = tid x then (tid x, { p.2 with prev := some (tid v) }) else p) =
            nodesOfAux tid (some (tid v)) (x :: rest) none :=
        map_setPrev_head tid x rest none none (some (tid v)) hx
      have hperm2 := hperm.map
        (fun p => if p.1 = tid x then (tid x, { p.2 with prev := some (tid v) }) else p)
      rw [hmap] at hperm2
      refine (hperm2.append (List.Perm.refl
        [(tid v, { value := v, next := some (tid x), prev := none })])).trans ?_
      exact List.perm_append_singleton _ _

/-- Popping a consistent non-empty container returns the first element
of the represented sequence and represents its tail. -/
theorem represents_pop (tid : T → Id) (lhm : LinkedHashmap Id T) (x : T) (rest : List T)
    (h : Represents tid lhm (x :: rest)) :
    lhm.pop.1 = some x ∧ Represents tid lhm.pop.2 rest := by
  obtain ⟨hnodup, hhead, htail, hperm⟩ := h
  have hkeys : (lhm.items.map Prod.fst).Nodup :=
    represents_keys_nodup tid lhm (x :: rest) ⟨hnodup, hhead, htail, hperm⟩
  have hx : tid x ∉ rest.map tid := by
    have := hnodup
    simp only [List.map_cons, List.nodup_cons] at this
    exact this.1
  have hnrest : (rest.map tid).Nodup := by
    have := hnodup
    simp only [List.map_cons, List.nodup_cons] at this
    exact this.2
  have hhead2 : lhm.head = some (tid x) := by simpa [headId] using hhead
  have hlookx : mGet? lhm.items (tid x) =
      some { value := x, next := headId tid rest none, prev := none } := by
    rw [represents_lookup tid lhm (x :: rest) ⟨hnodup, hhead, htail, hperm⟩]
    have := mGet?_nodesOfAux_middle tid [] x rest none none (by simpa using hnodup)
    simpa [lastId] using this
  have hperm1 : (mErase lhm.items (tid x)).Perm (nodesOfAux tid (some (tid x)) rest none) := by
    rw [mErase_eq_filter _ _ hkeys]
    refine (hperm.filter _).trans ?_
    have hfil : (nodesOf tid (x :: rest)).filter (fun p => p.1 ≠ tid x) =
        nodesOfAux tid (some (tid x)) rest none := by
      rw [nodesOf, nodesOfAux, List.filter_cons]
      simp only [ne_eq, decide_not, decide_eq_true_eq]
      rw [if_neg (by simp)]
      have := filter_ne_eq_self (nodesOfAux tid (some (tid x)) rest none) (tid x)
        (by rw [keys_nodesOfAux]; exact hx)
      simpa [ne_eq, decide_not] using this
    rw [hfil]
  cases rest with
  | nil =>
    have hpop : lhm.pop = (some x,
        { head := none, tail := none, items := mErase lhm.items (tid x) }) := by
      simp [LinkedHashmap.pop, hhead2, hlookx, headId]
    rw [hpop]
    exact ⟨rfl, by simp, rfl, rfl, hperm1⟩
  | cons y rest2 =>
    have hy : tid y ∉ rest2.map tid := by
      have := hnrest
      simp only [List.map_cons, List.nodup_cons] at this
      exact this.1
    have herase_keys : ((mErase lhm.items (tid x)).map Prod.fst).Nodup :=
      ((hperm1.map Prod.fst).nodup_iff).mpr
        ((keys_nodesOfAux tid (some (tid x)) (y :: rest2) none).symm ▸ hnrest)
    have hlooky : mGet? (mErase lhm.items (tid x)) (tid y) =
        some { value := y, next := headId tid rest2 none, prev := some (tid x) } := by
      rw [mGet?_perm _ _ hperm1 (by rw [keys_nodesOfAux]; exact hnrest)]
      have := mGet?_nodesOfAux_middle tid [] y rest2 (some (tid x)) none
        (by simpa using hnrest)
      simpa [lastId] using this
    have hcont1 : mContains (mErase lhm.items (tid x)) (tid y) = true := by
      rw [mContains, hlooky]
      rfl
    have hpop : lhm.pop = (some x,
        { head := some (tid y), tail := lhm.tail,
          items := mModify (mErase lhm.items (tid x)) (tid y)
            (fun n => { n with prev := none }) }) := by
      simp [LinkedHashmap.pop, hhead2, hlookx, hcont1, headId]
    rw [hpop]
    refine ⟨rfl, hnrest, rfl, ?_, ?_⟩
    · show lhm.tail = lastId tid (y :: rest2) none
      rw [htail, lastId_cons tid x (y :: rest2) none]
      exact lastId_of_ne_nil tid (y :: rest2) _ _ (by simp)
    · show (mModify (mErase lhm.items (tid x)) (tid y)
          (fun n => { n with prev := none })).Perm (nodesOf tid (y :: rest2))
      rw [mModify_eq_map _ _ _ herase_keys]
      have hmap : (nodesOfAux tid (some (tid x)) (y :: rest2) none).map
          (fun p => if p.1 = tid y then (tid y, { p.2 with prev := none }) else p) =
            nodesOfAux tid none (y :: rest2) none :=
        map_setPrev_head tid y rest2 (some (tid x)) none none hy
      have hperm2 := hperm1.map
        (fun p => if p.1 = tid y then (tid y, { p.2 with prev := none }) else p)
      rw [hmap] at hperm2
      exact hperm2

/-- Presence characterised through `mContains`. -/
theorem mContains_eq_true_iff (m : List (Id × Node Id T)) (k : Id) :
    mContains m k = true ↔ k ∈ m.map Prod.fst := by
  cases hq : mContains m k with
  | false =>
    simp only [Bool.false_eq_true, false_iff]
    exact (mContains_eq_false_iff m k).mp hq
  | true =>
    simp only [true_iff]
    by_contra hc
    rw [(mContains_eq_false_iff m k).mpr hc] at hq
    cases hq

/-- Removing an element of a consistent container by id returns it and
represents the sequence with that element erased. -/
theorem represents_remove (tid : T → Id) (lhm : LinkedHashmap Id T)
    (l1 : List T) (u : T) (l2 : List T)
    (h : Represents tid lhm (l1 ++ u :: l2)) :
    (lhm.remove (tid u)).1 = some u ∧ Represents tid (lhm.remove (tid u)).2 (l1 ++ l2) := by
  obtain ⟨hnodup, hhead, htail, hperm⟩ := h
  have hkeys : (lhm.items.map Prod.fst).Nodup :=
    represents_keys_nodup tid lhm (l1 ++ u :: l2) ⟨hnodup, hhead, htail, hperm⟩
  have hnd := hnodup
  rw [List.map_append, List.map_cons, List.nodup_append] at hnd
  obtain ⟨hn1, hn2c, hdisj⟩ := hnd
  rw [List.nodup_cons] at hn2c
  obtain ⟨hu_l2, hn2⟩ := hn2c
  have hu_l1 : tid u ∉ l1.map tid := fun hc => (hdisj hc) (List.mem_cons_self _ _)
  have hdisj12 : ∀ a ∈ l1.map tid, a ∉ l2.map tid :=
    fun a ha hb => (hdisj ha) (List.mem_cons_of_mem _ hb)
  have hn12 : ((l1 ++ l2).map tid).Nodup := by
    rw [List.map_append, List.nodup_append]
    exact ⟨hn1, hn2, hdisj12⟩
  have hlooku : mGet? lhm.items (tid u) =
      some { value := u, next := headId tid l2 none, prev := lastId tid l1 none } := by
    rw [represents_lookup tid lhm (l1 ++ u :: l2) ⟨hnodup, hhead, htail, hperm⟩]
    exact mGet?_nodesOfAux_middle tid l1 u l2 none none hnodup
  have hsplit : nodesOf tid (l1 ++ u :: l2) =
      nodesOfAux tid none l1 (some (tid u)) ++
        (tid u, { value := u, next := headId tid l2 none, prev := lastId tid l1 none }) ::
          nodesOfAux tid (some (tid u)) l2 none := by
    rw [nodesOf, nodesOfAux_append tid none l1 (u :: l2) none]
    rfl
  have hkeysA : (nodesOfAux tid none l1 (some (tid u))).map Prod.fst = l1.map tid :=
    keys_nodesOfAux tid none l1 (some (tid u))
  have hkeysB : (nodesOfAux tid (some (tid u)) l2 none).map Prod.fst = l2.map tid :=
    keys_nodesOfAux tid (some (tid u)) l2 none
  have hfA := filter_ne_eq_self (nodesOfAux tid none l1 (some (tid u))) (tid u)
    (by rw [hkeysA]; exact hu_l1)
  have hfB := filter_ne_eq_self (nodesOfAux tid (some (tid u)) l2 none) (tid u)
    (by rw [hkeysB]; exact hu_l2)
  have hperm1 : (mErase lhm.items (tid u)).Perm
      (nodesOfAux tid none l1 (some (tid u)) ++ nodesOfAux tid (some (tid u)) l2 none) := by
    rw [mErase_eq_filter _ _ hkeys]
    refine (hperm.filter _).trans ?_
    rw [hsplit, List.filter_append, List.filter_cons]
    simp only [ne_eq, decide_not] at hfA hfB ⊢
    rw [if_neg (by simp), hfA, hfB]
  have hkeysAB : ((nodesOfAux tid none l1 (some (tid u)) ++
      nodesOfAux tid (some (tid u)) l2 none).map Prod.fst) = (l1 ++ l2).map tid := by
    rw [List.map_append, hkeysA, hkeysB, List.map_append]
  have hnAB : ((nodesOfAux tid none l1 (some (tid u)) ++
      nodesOfAux tid (some (tid u)) l2 none).map Prod.fst).Nodup := by
    rw [hkeysAB]
    exact hn12
  have herase_keys : ((mErase lhm.items (tid u)).map Prod.fst).Nodup :=
    ((hperm1.map Prod.fst).nodup_iff).mpr hnAB
  cases l2 with
  | nil =>
    rcases List.eq_nil_or_concat l1 with rfl | ⟨l0, w, rfl⟩
    · have hrem : lhm.remove (tid u) = (some u,
          { head := none, tail := none, items := mErase lhm.items (tid u) }) := by
        simp [LinkedHashmap.remove, hlooku, headId, lastId]
      rw [hrem]
      exact ⟨rfl, by simp, rfl, rfl, by simpa using hperm1⟩
    · rw [List.concat_eq_append] at *
      have hw_l0 : tid w ∉ l0.map tid := by
        rw [List.map_append, List.nodup_append] at hn1
        intro hc
        exact (hn1.2.2 hc) (by simp)
      have hlooku2 : mGet? lhm.items (tid u) =
          some { value := u, next := none, prev := some (tid w) } := by
        rw [hlooku, lastId_concat]
        rfl
      have hlookw : mGet? (mErase lhm.items (tid u)) (tid w) =
          some { value := w, next := some (tid u), prev := lastId tid l0 none } := by
        rw [mGet?_perm _ _ hperm1 hnAB]
        refine mGet?_append_of_some _ _ _ _ ?_
        have h1 := mGet?_nodesOfAux_middle tid l0 w [] none (some (tid u)) hn1
        simpa [headId] using h1
      have hcontw : mContains (mErase lhm.items (tid u)) (tid w) = true := by
        rw [mContains, hlookw]
        rfl
      have hrem : lhm.remove (tid u) = (some u,
          { head := lhm.head, tail := some (tid w),
            items := mModify (mErase lhm.items (tid u)) (tid w)
              (fun n => { n with next := none }) }) := by
        simp [LinkedHashmap.remove, hlooku2, hcontw]
      rw [hrem]
      refine ⟨rfl, by simpa using hn12, ?_, ?_, ?_⟩
      · show lhm.head = headId tid ((l0 ++ [w]) ++ []) none
        rw [List.append_nil, hhead, headId_append tid (l0 ++ [w]) [u] none]
        exact headId_of_ne_nil tid (l0 ++ [w]) _ _ (by simp)
      · show some (tid w) = lastId tid ((l0 ++ [w]) ++ []) none
        rw [List.append_nil, lastId_concat]
      · show (mModify (mErase lhm.items (tid u)) (tid w)
            (fun n => { n with next := none })).Perm (nodesOf tid ((l0 ++ [w]) ++ []))
        rw [List.append_nil, mModify_eq_map _ _ _ herase_keys]
        have hp := hperm1.map
          (fun p => if p.1 = tid w then (tid w, { p.2 with next := none }) else p)
        rw [List.map_append] at hp
        have hmapA : (nodesOfAux tid none (l0 ++ [w]) (some (tid u))).map
            (fun p => if p.1 = tid w then (tid w, { p.2 with next := none }) else p) =
              nodesOfAux tid none (l0 ++ [w]) none :=
          map_setNext_last tid l0 w none (some (tid u)) none hw_l0
        have hmapB : (nodesOfAux tid (some (tid u)) ([] : List T) none).map
            (fun p => if p.1 = tid w then (tid w, { p.2 with next := none }) else p) = [] := rfl
        rw [hmapA, hmapB, List.append_nil] at hp
        exact hp
  | cons y l2t =>
    have hy_l2t : tid y ∉ l2t.map tid := by
      rw [List.map_cons, List.nodup_cons] at hn2
      exact hn2.1
    have hy_l1 : tid y ∉ l1.map tid := by
      intro hc
      exact (hdisj12 _ hc) (by simp)
    rcases List.eq_nil_or_concat l1 with rfl | ⟨l0, w, rfl⟩
    · have hlooku2 : mGet? lhm.items (tid u) =
          some { value := u, next := some (tid y), prev := none } := by
        rw [hlooku]
        rfl
      have hlooky : mGet? (mErase lhm.items (tid u)) (tid y) =
          some { value := y, next := headId tid l2t none, prev := some (tid u) } := by
        rw [mGet?_perm _ _ hperm1 hnAB]
        simp [nodesOfAux, mGet?]
      have hconty : mContains (mErase lhm.items (tid u)) (tid y) = true := by
        rw [mContains, hlooky]
        rfl
      have hrem : lhm.remove (tid u) = (some u,
          { head := some (tid y), tail := lhm.tail,
            items := mModify (mErase lhm.items (tid u)) (tid y)
              (fun n => { n with prev := none }) }) := by
        simp [LinkedHashmap.remove, hlooku2, hconty]
      rw [hrem]
      refine ⟨rfl, by simpa using hn12, rfl, ?_, ?_⟩
      · show lhm.tail = lastId tid ([] ++ y :: l2t) none
        rw [htail]
        simp only [List.nil_append]
        rw [lastId_cons]
        exact lastId_of_ne_nil tid (y :: l2t) _ _ (by simp)
      · show (mModify (mErase lhm.items (tid u)) (tid y)
            (fun n => { n with prev := none })).Perm (nodesOf tid ([] ++ y :: l2t))
        rw [mModify_eq_map _ _ _ herase_keys]
        have hp := hperm1.map
          (fun p => if p.1 = tid y then (tid y, { p.2 with prev := none }) else p)
        rw [List.map_append] at hp
        have hmapA : (nodesOfAux tid none ([] : List T) (some (tid u))).map
            (fun p => if p.1 = tid y then (tid y, { p.2 with prev := none }) else p) = [] := rfl
        have hmapB : (nodesOfAux tid (some (tid u)) (y :: l2t) none).map
            (fun p => if p.1 = tid y then (tid y, { p.2 with prev := none }) else p) =
              nodesOfAux tid none (y :: l2t) none :=
          map_setPrev_head tid y l2t (some (tid u)) none none hy_l2t
        rw [hmapA, hmapB, List.nil_append] at hp
        exact hp
    · rw [List.concat_eq_append] at *
      have hw_l0 : tid w ∉ l0.map tid := by
        rw [List.map_append, List.nodup_append] at hn1
        intro hc
        exact (hn1.2.2 hc) (by simp)
      have hw_l2 : tid w ∉ (y :: l2t).map tid := by
        intro hc
        exact (hdisj12 (tid w) (by simp)) hc
      have hlooku2 : mGet? lhm.items (tid u) =
          some { value := u, next := some (tid y), prev := some (tid w) } := by
        rw [hlooku, lastId_concat]
        rfl
      have hlooky : mGet? (mErase lhm.items (tid u)) (tid y) =
          some { value := y, next := headId tid l2t none, prev := some (tid u) } := by
        rw [mGet?_perm _ _ hperm1 hnAB]
        rw [mGet?_append_of_none _ _ _ (by rw [mGet?_eq_none_iff, hkeysA]; exact hy_l1)]
        simp [nodesOfAux, mGet?]
      have hconty : mContains (mErase lhm.items (tid u)) (tid y) = true := by
        rw [mContains, hlooky]
        rfl
      have hperm2 : (mModify (mErase lhm.items (tid u)) (tid y)
          (fun n => { n with prev := some (tid w) })).Perm
            (nodesOfAux tid none (l0 ++ [w]) (some (tid u)) ++
              nodesOfAux tid (some (tid w)) (y :: l2t) none) := by
        rw [mModify_eq_map _ _ _ herase_keys]
        have hp := hperm1.map
          (fun p => if p.1 = tid y then (tid y, { p.2 with prev := some (tid w) }) else p)
        rw [List.map_append] at hp
        have hmapA := map_update_eq_self (nodesOfAux tid none (l0 ++ [w]) (some (tid u)))
          (tid y) (fun n => { n with prev := some (tid w) }) (by rw [hkeysA]; exact hy_l1)
        have hmapB : (nodesOfAux tid (some (tid u)) (y :: l2t) none).map
            (fun p => if p.1 = tid y then (tid y, { p.2 with prev := some (tid w) }) else p) =
              nodesOfAux tid (some (tid w)) (y :: l2t) none :=
          map_setPrev_head tid y l2t (some (tid u)) none (some (tid w)) hy_l2t
        rw [hmapA, hmapB] at hp
        exact hp
      have hkeysAB2 : ((nodesOfAux tid none (l0 ++ [w]) (some (tid u)) ++
          nodesOfAux tid (some (tid w)) (y :: l2t) none).map Prod.fst).Nodup := by
        rw [List.map_append, keys_nodesOfAux, keys_nodesOfAux, ← List.map_append]
        exact hn12
      have hmod1_keys : ((mModify (mErase lhm.items (tid u)) (tid y)
          (fun n => { n with prev := some (tid w) })).map Prod.fst).Nodup := by
        rw [keys_mModify]
        exact herase_keys
      have hlookw : mGet? (mModify (mErase lhm.items (tid u)) (tid y)
          (fun n => { n with prev := some (tid w) })) (tid w) =
            some { value := w, next := some (tid u), prev := lastId tid l0 none } := by
        rw [mGet?_perm _ _ hperm2 hkeysAB2]
        refine mGet?_append_of_some _ _ _ _ ?_
        have h1 := mGet?_nodesOfAux_middle tid l0 w [] none (some (tid u)) hn1
        simpa [headId] using h1
      have hcontw : mContains (mModify (mErase lhm.items (tid u)) (tid y)
          (fun n => { n with prev := some (tid w) })) (tid w) = true := by
        rw [mContains, hlookw]
        rfl
      have hrem : lhm.remove (tid u) = (some u,
          { head := lhm.head, tail := lhm.tail,
            items := mModify (mModify (mErase lhm.items (tid u)) (tid y)
              (fun n => { n with prev := some (tid w) })) (tid w)
                (fun n => { n with next := some (tid y) }) }) := by
        simp [LinkedHashmap.remove, hlooku2, hconty, hcontw]
      rw [hrem]
      refine ⟨rfl, by simpa using hn12, ?_, ?_, ?_⟩
      · show lhm.head = headId tid ((l0 ++ [w]) ++ y :: l2t) none
        rw [hhead, headId_append tid (l0 ++ [w]) (u :: y :: l2t) none,
          headId_append tid (l0 ++ [w]) (y :: l2t) none]
        exact headId_of_ne_nil tid (l0 ++ [w]) _ _ (by simp)
      · show lhm.tail = lastId tid ((l0 ++ [w]) ++ y :: l2t) none
        rw [htail]
        simp only [lastId_append, lastId_cons]
      · show (mModify (mModify (mErase lhm.items (tid u)) (tid y)
            (fun n => { n with prev := some (tid w) })) (tid w)
              (fun n => { n with next := some (tid y) })).Perm
                (nodesOf tid ((l0 ++ [w]) ++ y :: l2t))
        rw [mModify_eq_map _ _ _ hmod1_keys]
        have hp := hperm2.map
          (fun p => if p.1 = tid w then (tid w, { p.2 with next := some (tid y) }) else p)
        rw [List.map_append] at hp
        have hmapA : (nodesOfAux tid none (l0 ++ [w]) (some (tid u))).map
            (fun p => if p.1 = tid w then (tid w, { p.2 with next := some (tid y) }) else p) =
              nodesOfAux tid none (l0 ++ [w]) (some (tid y)) :=
          map_setNext_last tid l0 w none (some (tid u)) (some (tid y)) hw_l0
        have hmapB := map_update_eq_self (nodesOfAux tid (some (tid w)) (y :: l2t) none)
          (tid w) (fun n => { n with next := some (tid y) })
          (by rw [keys_nodesOfAux]; exact hw_l2)
        rw [hmapA, hmapB] at hp
        refine hp.trans ?_
        rw [nodesOf, nodesOfAux_append tid none (l0 ++ [w]) (y :: l2t) none, lastId_concat]
        rw [show headId tid (y :: l2t) none = some (tid y) from rfl]

/-- Removing an absent id does nothing. -/
theorem remove_absent (lhm : LinkedHashmap Id T) (id : Id)
    (h : mGet? lhm.items id = none) : lhm.remove id = (none, lhm) := by
  simp [LinkedHashmap.remove, h]

/-- Popping with no recorded head does nothing. -/
theorem pop_empty (lhm : LinkedHashmap Id T) (h : lhm.head = none) :
    lhm.pop = (none, lhm) := by
  simp [LinkedHashmap.pop, h]

/-- Popping with a recorded head absent from the map resets both
boundaries (defensive self-healing) and returns nothing. -/
theorem pop_inconsistent (lhm : LinkedHashmap Id T) (hid : Id)
    (h : lhm.head = some hid) (h2 : mGet? lhm.items hid = none) :
    lhm.pop = (none, { head := none, tail := none, items := lhm.items }) := by
  simp [LinkedHashmap.pop, h, h2]

/-- Erasing the unique occurrence of an id from the abstract sequence. -/
theorem filter_erase_of_nodup (tid : T → Id) (l1 : List T) (u : T) (l2 : List T)
    (hn : ((l1 ++ u :: l2).map tid).Nodup) :
    (l1 ++ u :: l2).filter (fun x => tid x ≠ tid u) = l1 ++ l2 := by
  have hnd := hn
  rw [List.map_append, List.map_cons, List.nodup_append] at hnd
  obtain ⟨hn1, hn2c, hdisj⟩ := hnd
  rw [List.nodup_cons] at hn2c
  have hf1 : l1.filter (fun x => tid x ≠ tid u) = l1 := by
    refine List.filter_eq_self.mpr (fun a ha => ?_)
    simp only [ne_eq, decide_not, Bool.not_eq_eq_eq_not, Bool.not_true, decide_eq_false_iff_not]
    intro hc
    exact (hdisj (List.mem_map.mpr ⟨a, ha, hc⟩)) (List.mem_cons_self _ _)
  have hf2 : l2.filter (fun x => tid x ≠ tid u) = l2 := by
    refine List.filter_eq_self.mpr (fun a ha => ?_)
    simp only [ne_eq, decide_not, Bool.not_eq_eq_eq_not, Bool.not_true, decide_eq_false_iff_not]
    intro hc
    exact hn2c.1 (List.mem_map.mpr ⟨a, ha, hc⟩)
  rw [List.filter_append, List.filter_cons, hf1, hf2]
  rw [if_neg (by simp)]

/-- One container operation refines one abstract operation. -/
theorem represents_applyOp (tid : T → Id) (lhm : LinkedHashmap Id T) (l : List T)
    (op : Op Id T) (h : Represents tid lhm l) :
    Represents tid (applyOp tid lhm op) (modelOp tid l op) := by
  cases op with
  | push v =>
    by_cases hm : tid v ∈ l.map tid
    · have hc : mContains lhm.items (tid v) = true := by
        rw [represents_contains tid lhm l h]
        simp [hm]
      have hnoop : lhm.push tid v = lhm := by
        simp [LinkedHashmap.push, hc]
      simpa [applyOp, modelOp, hm, hnoop] using h
    · simpa [applyOp, modelOp, hm] using represents_push tid lhm l v h hm
  | push_first v =>
    by_cases hm : tid v ∈ l.map tid
    · have hc : mContains lhm.items (tid v) = true := by
        rw [represents_contains tid lhm l h]
        simp [hm]
      have hnoop : lhm.push_first tid v = lhm := by
        simp [LinkedHashmap.push_first, hc]
      simpa [applyOp, modelOp, hm, hnoop] using h
    · simpa [applyOp, modelOp, hm] using represents_push_first tid lhm l v h hm
  | pop =>
    cases l with
    | nil =>
      have hh : lhm.head = none := by simpa [headId] using h.2.1
      have hp := pop_empty lhm hh
      simpa [applyOp, modelOp, hp] using h
    | cons x rest =>
      have hp := represents_pop tid lhm x rest h
      simpa [applyOp, modelOp] using hp.2
  | remove id =>
    by_cases hm : id ∈ l.map tid
    · obtain ⟨u, hu_mem, hu_id⟩ := List.mem_map.mp hm
      subst hu_id
      obtain ⟨l1, l2, rfl⟩ := List.append_of_mem hu_mem
      have hr := represents_remove tid lhm l1 u l2 h
      have hfil := filter_erase_of_nodup tid l1 u l2 h.1
      have hgoal : modelOp tid (l1 ++ u :: l2) (Op.remove (tid u)) = l1 ++ l2 := hfil
      show Represents tid (applyOp tid lhm (Op.remove (tid u)))
        (modelOp tid (l1 ++ u :: l2) (Op.remove (tid u)))
      rw [hgoal]
      exact hr.2
    · have hg : mGet? lhm.items id = none := by
        rw [represents_lookup tid lhm l h, mGet?_eq_none_iff, nodesOf, keys_nodesOfAux]
        exact hm
      have hrem := remove_absent lhm id hg
      have hfil : l.filter (fun x => tid x ≠ id) = l := by
        refine List.filter_eq_self.mpr (fun a ha => ?_)
        simp only [ne_eq, decide_not, Bool.not_eq_eq_eq_not, Bool.not_true,
          decide_eq_false_iff_not]
        intro hc
        exact hm (List.mem_map.mpr ⟨a, ha, hc⟩)
      have hgoal : modelOp tid l (Op.remove id) = l := hfil
      show Represents tid (applyOp tid lhm (Op.remove id)) (modelOp tid l (Op.remove id))
      rw [hgoal]
      show Represents tid (lhm.remove id).2 l
      rw [hrem]
      exact h
  | clear =>
    exact ⟨List.nodup_nil, rfl, rfl, List.Perm.refl _⟩

/-- A run of container operations refines the run of abstract operations. -/
theorem represents_foldl (tid : T → Id) (ops : List (Op Id T)) (lhm : LinkedHashmap Id T)
    (l : List T) (h : Represents tid lhm l) :
    Represents tid (ops.foldl (applyOp tid) lhm) (ops.foldl (modelOp tid) l) := by
  induction ops generalizing lhm l with
  | nil => exact h
  | cons op rest ih => exact ih _ _ (represents_applyOp tid lhm l op h)

/-- Every reachable container represents the modelled sequence. -/
theorem represents_runOps (tid : T → Id) (ops : List (Op Id T)) :
    Represents tid (runOps tid ops) (modelRun tid ops) :=
  represents_foldl tid ops LinkedHashmap.new [] (represents_new tid)

/-- Forward traversal from any suffix boundary recovers that suffix. -/
theorem traverseNext_spec (tid : T → Id) (m : List (Id × Node Id T)) (l2 l1 : List T)
    (fuel : Nat) (hlk : ∀ k, mGet? m k = mGet? (nodesOf tid (l1 ++ l2)) k)
    (hn : ((l1 ++ l2).map tid).Nodup) (hf : l2.length ≤ fuel) :
    traverseNext m fuel (headId tid l2 none) = l2 := by
  induction l2 generalizing l1 fuel with
  | nil =>
    cases fuel with
    | zero => rfl
    | succ f => rfl
  | cons y rest ih =>
    cases fuel with
    | zero => simp at hf
    | succ f =>
      have hy : mGet? m (tid y) =
          some { value := y, next := headId tid rest none, prev := lastId tid l1 none } := by
        rw [hlk (tid y)]
        exact mGet?_nodesOfAux_middle tid l1 y rest none none hn
      show traverseNext m (f + 1) (some (tid y)) = y :: rest
      rw [traverseNext, hy]
      have hassoc : l1 ++ y :: rest = (l1 ++ [y]) ++ rest := by simp
      refine congrArg (List.cons y) (ih (l1 ++ [y]) f ?_ ?_ (by simp at hf; omega))
      · intro k
        rw [hlk k, hassoc]
      · rw [← hassoc]
        exact hn

/-- Backward traversal from any prefix boundary recovers that prefix,
reversed. -/
theorem traversePrev_spec (tid : T → Id) (m : List (Id × Node Id T)) (l2 l1 : List T)
    (fuel : Nat) (hlk : ∀ k, mGet? m k = mGet? (nodesOf tid (l2 ++ l1)) k)
    (hn : ((l2 ++ l1).map tid).Nodup) (hf : l2.length ≤ fuel) :
    traversePrev m fuel (lastId tid l2 none) = l2.reverse := by
  induction l2 using List.reverseRecOn generalizing l1 fuel with
  | nil =>
    cases fuel with
    | zero => rfl
    | succ f => rfl
  | append_singleton init w ih =>
    cases fuel with
    | zero => simp at hf
    | succ f =>
      have hassoc : (init ++ [w]) ++ l1 = init ++ w :: l1 := by simp
      have hw : mGet? m (tid w) =
          some { value := w, next := headId tid l1 none, prev := lastId tid init none } := by
        rw [hlk (tid w), hassoc]
        exact mGet?_nodesOfAux_middle tid init w l1 none none (by rw [← hassoc]; exact hn)
      rw [lastId_concat]
      rw [traversePrev, hw]
      rw [show (init ++ [w]).reverse = w :: init.reverse from by simp]
      refine congrArg (List.cons w) (ih (w :: l1) f ?_ ?_ (by simp at hf ⊢; omega))
      · intro k
        rw [hlk k, hassoc]
      · rw [← hassoc]
        exact hn

/-- The forward traversal of a consistent container is its sequence. -/
theorem toListNext_represents (tid : T → Id) (lhm : LinkedHashmap Id T) (l : List T)
    (h : Represents tid lhm l) : toListNext lhm = l := by
  rw [toListNext, h.2.1, represents_length tid lhm l h]
  exact traverseNext_spec tid lhm.items l [] l.length
    (fun k => represents_lookup tid lhm l h k) h.1 (Nat.le_refl _)

/-- The backward traversal of a consistent container is its reversed
sequence. -/
theorem toListPrev_represents (tid : T → Id) (lhm : LinkedHashmap Id T) (l : List T)
    (h : Represents tid lhm l) : toListPrev lhm = l.reverse := by
  rw [toListPrev, h.2.2.1, represents_length tid lhm l h]
  refine traversePrev_spec tid lhm.items l [] l.length ?_ ?_ (Nat.le_refl _)
  · intro k
    rw [represents_lookup tid lhm l h k, List.append_nil]
  · rw [List.append_nil]
    exact h.1

/-- Pushing a batch of values with fresh, distinct ids appends them. -/
theorem pushAll_represents (tid : T → Id) (vs : List T) (lhm : LinkedHashmap Id T)
    (l : List T) (h : Represents tid lhm l) (hn : ((l ++ vs).map tid).Nodup) :
    Represents tid (pushAll tid lhm vs) (l ++ vs) := by
  induction vs generalizing lhm l with
  | nil => simpa using h
  | cons v rest ih =>
    have hv : tid v ∉ l.map tid := by
      rw [List.map_append, List.nodup_append] at hn
      intro hc
      exact (hn.2.2 hc) (by simp)
    have h2 := represents_push tid lhm l v h hv
    have hassoc : (l ++ [v]) ++ rest = l ++ v :: rest := by simp
    have h3 := ih (lhm.push tid v) (l ++ [v]) h2 (by rw [hassoc]; exact hn)
    rw [hassoc] at h3
    exact h3

/-- The only container representing the empty sequence is the empty one. -/
theorem represents_nil_eq_new (tid : T → Id) (lhm : LinkedHashmap Id T)
    (h : Represents tid lhm []) : lhm = LinkedHashmap.new := by
  have h1 : lhm.head = none := by simpa [headId] using h.2.1
  have h2 : lhm.tail = none := by simpa [lastId] using h.2.2.1
  have h3 : lhm.items = [] := h.2.2.2.eq_nil
  cases lhm
  simp_all [LinkedHashmap.new]

/-- Popping as many times as the container holds drains it in order. -/
theorem popN_represents (tid : T → Id) (l : List T) (lhm : LinkedHashmap Id T)
    (h : Represents tid lhm l) :
    popN lhm l.length = (l, (LinkedHashmap.new : LinkedHashmap Id T)) := by
  induction l generalizing lhm with
  | nil =>
    show ([], lhm) = ([], LinkedHashmap.new)
    rw [represents_nil_eq_new tid lhm h]
  | cons x rest ih =>
    have hp := represents_pop tid lhm x rest h
    have hpair : lhm.pop = (some x, lhm.pop.2) := by
      rw [← hp.1]
    have hrec := ih lhm.pop.2 hp.2
    show popN lhm (rest.length + 1) = (x :: rest, LinkedHashmap.new)
    rw [popN, hpair]
    simp [hrec]

/-- New head nodes of consistent containers carry no back link. -/
theorem represents_head_prev_none (tid : T → Id) (c : LinkedHashmap Id T) (l : List T)
    (h : Represents tid c l) (k : Id) (n : Node Id T)
    (hk : c.head = some k) (hn : mGet? c.items k = some n) : n.prev = none := by
  cases l with
  | nil =>
    rw [show c.head = none from by simpa [headId] using h.2.1] at hk
    cases hk
  | cons x rest =>
    have hkx : k = tid x := by
      have := h.2.1
      rw [hk] at this
      injection this with h1
    subst hkx
    have hlook : mGet? c.items (tid x) =
        some { value := x, next := headId tid rest none, prev := none } := by
      rw [represents_lookup tid c (x :: rest) h]
      have := mGet?_nodesOfAux_middle tid [] x rest none none (by simpa using h.1)
      simpa [lastId] using this
    rw [hlook] at hn
    injection hn with h2
    rw [← h2]

/-- C1: for every sequence of operations from the empty container, the
traversal following `next` links from `head` is exactly the logical
insertion order modulo explicit removals (so it visits every stored
entry exactly once, the ids being unique), it ends at the entry named
by `tail`, and following `prev` links from `tail` reproduces the
reverse sequence. -/
theorem fifo_traversal_spec (tid : T → Id) (ops : List (Op Id T)) :
    toListNext (runOps tid ops) = modelRun tid ops ∧
    toListPrev (runOps tid ops) = (modelRun tid ops).reverse ∧
    (runOps tid ops).head = headId tid (modelRun tid ops) none ∧
    (runOps tid ops).tail = lastId tid (modelRun tid ops) none ∧
    ((modelRun tid ops).map tid).Nodup := by
  have h := represents_runOps tid ops
  exact ⟨toListNext_represents tid _ _ h, toListPrev_represents tid _ _ h,
    h.2.1, h.2.2.1, h.1⟩

/-- C4: removing a present id returns the stored value, shrinks the
container by one, makes `contains` false, relinks the neighbours so the
remainder is represented exactly, and updates `head`/`tail` to the
neighbour (or to nothing); removing an absent id returns nothing and
leaves the container unchanged. -/
theorem remove_spec (tid : T → Id) (lhm : LinkedHashmap Id T) (l1 : List T) (u : T)
    (l2 : List T) (id : Id) (h : Represents tid lhm (l1 ++ u :: l2))
    (ha : mGet? lhm.items id = none) :
    (lhm.remove (tid u)).1 = some u ∧
    Represents tid (lhm.remove (tid u)).2 (l1 ++ l2) ∧
    (lhm.remove (tid u)).2.len + 1 = lhm.len ∧
    (lhm.remove (tid u)).2.contains (tid u) = false ∧
    (lhm.remove (tid u)).2.head = headId tid (l1 ++ l2) none ∧
    (lhm.remove (tid u)).2.tail = lastId tid (l1 ++ l2) none ∧
    lhm.remove id = (none, lhm) := by
  have hr := represents_remove tid lhm l1 u l2 h
  have hu : tid u ∉ (l1 ++ l2).map tid := by
    have hnd := h.1
    rw [List.map_append, List.map_cons, List.nodup_append] at hnd
    obtain ⟨hn1, hn2c, hdisj⟩ := hnd
    rw [List.nodup_cons] at hn2c
    rw [List.map_append, List.mem_append]
    rintro (hc | hc)
    · exact (hdisj hc) (List.mem_cons_self _ _)
    · exact hn2c.1 hc
  refine ⟨hr.1, hr.2, ?_, ?_, hr.2.2.1, hr.2.2.2.1, remove_absent lhm id ha⟩
  · show (lhm.remove (tid u)).2.items.length + 1 = lhm.items.length
    rw [represents_length tid _ _ hr.2, represents_length tid _ _ h]
    simp only [List.length_append, List.length_cons]
    omega
  · show mContains (lhm.remove (tid u)).2.items (tid u) = false
    rw [represents_contains tid _ _ hr.2]
    simp only [decide_eq_false_iff_not]
    exact hu

/-- Witness for C4: removing the middle id 2 of a three-element
container [1,2,3]; removing the absent id 99 changes nothing. -/
theorem remove_spec_witness :
    let c : LinkedHashmap Nat Nat :=
      { head := some 1, tail := some 3,
        items := [(1, { value := 1, next := some 2, prev := none }),
          (2, { value := 2, next := some 3, prev := some 1 }),
          (3, { value := 3, next := none, prev := some 2 })] }
    (c.remove 2).1 = some 2 ∧
    Represents (fun x => x) (c.remove 2).2 ([1] ++ [3]) ∧
    (c.remove 2).2.len + 1 = c.len ∧
    (c.remove 2).2.contains 2 = false ∧
    (c.remove 2).2.head = headId (fun x => x) ([1] ++ [3]) none ∧
    (c.remove 2).2.tail = lastId (fun x => x) ([1] ++ [3]) none ∧
    c.remove 99 = (none, c) :=
  remove_spec (fun x => x)
    { head := some 1, tail := some 3,
      items := [(1, { value := 1, next := some 2, prev := none }),
        (2, { value := 2, next := some 3, prev := some 1 }),
        (3, { value := 3, next := none, prev := some 2 })] }
    [1] 2 [3] 99 (by exact ⟨by decide, by decide, by decide, by decide⟩) (by decide)

/-- C6: popping an empty container returns nothing and changes nothing;
popping when the recorded head id is absent from the map resets both
boundaries and returns nothing; popping a consistent non-empty
container removes and returns the first entry, after which the new head
(when there is one) has no back link. -/
theorem pop_spec (tid : T → Id) (lhm : LinkedHashmap Id T) (x : T) (rest : List T)
    (hid : Id) :
    (lhm.head = none → lhm.pop = (none, lhm)) ∧
    (lhm.head = some hid → mContains lhm.items hid = false →
      lhm.pop = (none, { head := none, tail := none, items := lhm.items })) ∧
    (Represents tid lhm (x :: rest) →
      lhm.pop.1 = some x ∧
      Represents tid lhm.pop.2 rest ∧
      lhm.pop.2.head = headId tid rest none ∧
      (∀ k n, lhm.pop.2.head = some k → mGet? lhm.pop.2.items k = some n →
        n.prev = none)) := by
  refine ⟨fun hh => pop_empty lhm hh, fun hh hc => ?_, fun hr => ?_⟩
  · have hg : mGet? lhm.items hid = none :=
      (mGet?_eq_none_iff lhm.items hid).mpr ((mContains_eq_false_iff lhm.items hid).mp hc)
    exact pop_inconsistent lhm hid hh hg
  · have hp := represents_pop tid lhm x rest hr
    exact ⟨hp.1, hp.2, hp.2.2.1,
      fun k n hk hn => represents_head_prev_none tid lhm.pop.2 rest hp.2 k n hk hn⟩

/-- Witness for C6: the empty container, an inconsistent container with
a dangling head id, and a consistent two-element container. -/
theorem pop_spec_witness :
    ((LinkedHashmap.new : LinkedHashmap Nat Nat).pop = (none, LinkedHashmap.new)) ∧
    (({ head := some 5, tail := some 5, items := [] } : LinkedHashmap Nat Nat).pop =
      (none, { head := none, tail := none, items := [] })) ∧
    (let c : LinkedHashmap Nat Nat :=
      { head := some 4, tail := some 7,
        items := [(4, { value := 4, next := some 7, prev := none }),
          (7, { value := 7, next := none, prev := some 4 })] }
     c.pop.1 = some 4 ∧
     Represents (fun x => x) c.pop.2 [7] ∧
     c.pop.2.head = headId (fun x => x) [7] none ∧
     (∀ k n, c.pop.2.head = some k → mGet? c.pop.2.items k = some n → n.prev = none)) :=
  ⟨(pop_spec (fun x => x) (LinkedHashmap.new : LinkedHashmap Nat Nat) 0 [] 0).1 rfl,
   (pop_spec (fun x => x)
     ({ head := some 5, tail := some 5, items := [] } : LinkedHashmap Nat Nat)
     0 [] 5).2.1 rfl (by decide),
   (pop_spec (fun x => x)
     { head := some 4, tail := some 7,
       items := [(4, { value := 4, next := some 7, prev := none }),
         (7, { value := 7, next := none, prev := some 4 })] }
     4 [7] 0).2.2 (by exact ⟨by decide, by decide, by decide, by decide⟩)⟩

/-- C7: pushing distinct values then popping that many times returns
them in insertion order and leaves the container empty. -/
theorem push_pop_roundtrip (tid : T → Id) (vs : List T) (hn : (vs.map tid).Nodup) :
    popN (pushAll tid (LinkedHashmap.new : LinkedHashmap Id T) vs) vs.length =
      (vs, LinkedHashmap.new) := by
  have h := pushAll_represents tid vs LinkedHashmap.new [] (represents_new tid)
    (by simpa using hn)
  exact popN_represents tid vs _ h

/-- Witness for C7: three distinct values round-trip in order. -/
theorem push_pop_roundtrip_witness :
    popN (pushAll (fun x => x) (LinkedHashmap.new : LinkedHashmap Nat Nat) [5, 9, 3]) 3 =
      ([5, 9, 3], LinkedHashmap.new) :=
  push_pop_roundtrip (fun x => x) [5, 9, 3] (by decide)

/-- C8: on every reachable container, `head` is absent iff the backing
map is empty iff `tail` is absent. -/
theorem boundary_empty_iff (tid : T → Id) (ops : List (Op Id T)) :
    ((runOps tid ops).head = none ↔ (runOps tid ops).items = []) ∧
    ((runOps tid ops).tail = none ↔ (runOps tid ops).items = []) := by
  have h := represents_runOps tid ops
  cases hl : modelRun tid ops with
  | nil =>
    rw [hl] at h
    have h3 : (runOps tid ops).items = [] := h.2.2.2.eq_nil
    have h1 : (runOps tid ops).head = none := by simpa [headId] using h.2.1
    have h2 : (runOps tid ops).tail = none := by simpa [lastId] using h.2.2.1
    simp [h1, h2, h3]
  | cons x rest =>
    rw [hl] at h
    have h1 : (runOps tid ops).head = some (tid x) := by simpa [headId] using h.2.1
    have hne : (runOps tid ops).items ≠ [] := by
      intro hc
      have hlen := represents_length tid _ _ h
      rw [hc] at hlen
      simp at hlen
    obtain ⟨l0, w, hlw⟩ := (List.eq_nil_or_concat (x :: rest)).resolve_left (by simp)
    rw [List.concat_eq_append] at hlw
    have h2 : (runOps tid ops).tail = some (tid w) := by
      rw [h.2.2.1, hlw, lastId_concat]
    refine ⟨⟨fun hc => ?_, fun hc => absurd hc hne⟩,
      ⟨fun hc => ?_, fun hc => absurd hc hne⟩⟩
    · rw [h1] at hc
      cases hc
    · rw [h2] at hc
      cases hc

/-- Witness for C5: re-pushing id 1 into a one-element container
changes nothing. -/
theorem push_duplicate_noop_witness :
    let c : LinkedHashmap Nat Nat :=
      { head := some 1, tail := some 1,
        items := [(1, { value := 10, next := none, prev := none })] }
    c.push (fun x => x / 10) 17 = c ∧ c.push_first (fun x => x / 10) 17 = c :=
  push_duplicate_noop (fun x => x / 10)
    { head := some 1, tail := some 1,
      items := [(1, { value := 10, next := none, prev := none })] } 17 (by decide)

end Exchain
